import Mathlib

/-!
Shallow embedding of `apps/resize/resize_generator.cpp` (a Halide resize
generator) and verification of its specification.

The generator resamples a 3D (x, y, channel) float image by a uniform
positive scale factor, using one of four separable interpolation kernels
(box, linear, cubic, lanczos).  Float arithmetic is modelled as exact real
arithmetic, Halide `Expr`s become real-valued functions, `Func`s become Lean
functions, and the `RDom(0, kernel_taps)` reduction becomes a sum over
`Finset.range`.  Division by zero in ℝ yields 0 (where the C++ float code
would produce NaN/Inf); theorems touching that case only use that the result
differs from the finite value the spec asserts.
-/

open Real

noncomputable section

/-! ### The kernel library (lines 9-39 of the source) -/

/-- `kernel_box` from the source: `select(|x| <= 0.5f, 1.0f, 0.0f)`. -/
def kernel_box (x : ℝ) : ℝ :=
  if |x| ≤ 0.5 then 1 else 0

/-- `kernel_linear` from the source: `select(|x| < 1.0f, 1.0f - |x|, 0.0f)`. -/
def kernel_linear (x : ℝ) : ℝ :=
  if |x| < 1 then 1 - |x| else 0

/-- `kernel_cubic` from the source (Keys cubic with `a = -0.5f`). -/
def kernel_cubic (x : ℝ) : ℝ :=
  let xx := |x|
  let xx2 := xx * xx
  let xx3 := xx2 * xx
  let a : ℝ := -(1/2)
  if xx < 1 then (a + 2) * xx3 - (a + 3) * xx2 + 1
  else if xx < 2 then a * xx3 - 5 * a * xx2 + 8 * a * xx - 4 * a
  else 0

/-- `sinc` from the source.  Note: the code computes `sin(πx)/x`, without the
`π` in the denominator that the conventional normalized sinc has. -/
def sinc (x : ℝ) : ℝ :=
  Real.sin (π * x) / x

/-- The spec's sinc, `sin(πx)/(πx)` — declared only to compare the code's
lanczos kernel against the formula the spec states for it. -/
def specSinc (x : ℝ) : ℝ :=
  Real.sin (π * x) / (π * x)

/-- `kernel_lanczos` from the source: `sinc(x)*sinc(x/3)`, patched to `1` at
`x = 0` by the first `select` and to `0` outside `(-3, 3)` by the second
(outermost) `select`. -/
def kernel_lanczos (x : ℝ) : ℝ :=
  if 3 < x ∨ x < -3 then 0
  else if x = 0 then 1
  else sinc x * sinc (x / 3)

/-- The four interpolation types of the generator's `InterpolationType` enum. -/
inductive InterpolationType where
  | Box
  | Linear
  | Cubic
  | Lanczos
  deriving DecidableEq

/-- The `taps` column of the `kernel_info` dispatch table. -/
def taps : InterpolationType → ℕ
  | .Box => 1
  | .Linear => 2
  | .Cubic => 4
  | .Lanczos => 6

/-- The `kernel` column of the `kernel_info` dispatch table. -/
def kernelFn : InterpolationType → ℝ → ℝ
  | .Box => kernel_box
  | .Linear => kernel_linear
  | .Cubic => kernel_cubic
  | .Lanczos => kernel_lanczos

/-! ### Helper lemmas about the kernels -/

/-- `sin` vanishes at π times any integer (stated in the `π * j` orientation
used by `sinc`). -/
lemma sin_pi_mul_int (j : ℤ) : Real.sin (π * j) = 0 := by
  rw [mul_comm]
  exact Real.sin_int_mul_pi j

/-- The code's `sinc` vanishes at every integer (including 0, where the real
division by zero yields 0 in this model). -/
lemma sinc_intCast (j : ℤ) : sinc (j : ℝ) = 0 := by
  unfold sinc
  rw [sin_pi_mul_int]
  simp

end

/-! ### Claim C1: the lanczos kernel -/

/-- C1 counterexample: the claim states the lanczos kernel weight equals
`sinc(t)·sinc(t/3)` with `sinc(x) = sin(πx)/(πx)`; at `t = 1/2` the code
returns `6` while the claimed formula gives `6/π²`, so they differ. -/
theorem kernel_lanczos_ne_spec_formula :
    kernel_lanczos (1/2) ≠ specSinc (1/2) * specSinc ((1/2) / 3) := by
  have hpi := Real.pi_gt_three
  have h2 : Real.sin (π * (1/2)) = 1 := by
    rw [mul_one_div]; exact Real.sin_pi_div_two
  have h6 : Real.sin (π * (1/6)) = 1/2 := by
    rw [mul_one_div]; exact Real.sin_pi_div_six
  unfold kernel_lanczos sinc specSinc
  rw [if_neg (by norm_num), if_neg (by norm_num)]
  rw [show ((1:ℝ)/2) / 3 = 1/6 by norm_num, h2, h6]
  intro h
  field_simp at h
  nlinarith [Real.pi_pos, hpi]

/-- C1 (amended): the code's lanczos kernel returns 1 at `t = 0`, returns 0
for every `|t| ≥ 3`, and for `t ≠ 0`, `|t| ≤ 3` returns `π²·sinc(t)·sinc(t/3)`
with the spec's normalized `sinc(x) = sin(πx)/(πx)` — i.e. exactly `π²` times
the formula the spec claims, because the code's `sinc` omits the `π` in the
denominator. -/
theorem kernel_lanczos_amended :
    kernel_lanczos 0 = 1 ∧
    (∀ t : ℝ, 3 ≤ |t| → kernel_lanczos t = 0) ∧
    (∀ t : ℝ, t ≠ 0 → |t| ≤ 3 →
      kernel_lanczos t = π ^ 2 * (specSinc t * specSinc (t / 3))) := by
  refine ⟨?_, ?_, ?_⟩
  · unfold kernel_lanczos
    rw [if_neg (by norm_num), if_pos rfl]
  · intro t ht
    rcases lt_or_eq_of_le ht with h3 | h3
    · unfold kernel_lanczos
      rw [if_pos]
      rcases abs_cases t with ⟨he, _⟩ | ⟨he, _⟩
      · left; linarith
      · right; linarith
    · have : t = 3 ∨ t = -3 := by
        rcases abs_cases t with ⟨he, _⟩ | ⟨he, _⟩
        · left; linarith
        · right; linarith
      rcases this with rfl | rfl
      · unfold kernel_lanczos
        rw [if_neg (by norm_num), if_neg (by norm_num)]
        rw [show ((3:ℝ)) = ((3:ℤ):ℝ) by norm_num, sinc_intCast]
        ring
      · unfold kernel_lanczos
        rw [if_neg (by norm_num), if_neg (by norm_num)]
        rw [show ((-3:ℝ)) = ((-3:ℤ):ℝ) by norm_num, sinc_intCast]
        ring
  · intro t h0 h3
    have hb := abs_le.mp h3
    unfold kernel_lanczos sinc specSinc
    rw [if_neg (by push_neg; constructor <;> linarith), if_neg h0]
    have hπ := Real.pi_ne_zero
    field_simp
    ring

/-- C1 amended witness, instantiating the third conjunct at `t = 1`. -/
theorem kernel_lanczos_amended_witness :
    ((1:ℝ) ≠ 0 ∧ |(1:ℝ)| ≤ 3) ∧
      kernel_lanczos 1 = π ^ 2 * (specSinc 1 * specSinc (1 / 3)) := by
  refine ⟨⟨by norm_num, by rw [abs_one]; norm_num⟩, ?_⟩
  exact kernel_lanczos_amended.2.2 1 (by norm_num) (by rw [abs_one]; norm_num)

/-! ### Claim C8: the cubic kernel -/

noncomputable section

/-- The near piece of the Keys cubic, `(a+2)s³ − (a+3)s² + 1` with `a = −1/2`,
as a function of `s = |t|`. -/
def keysNear (s : ℝ) : ℝ :=
  (-(1/2) + 2) * s ^ 3 - (-(1/2) + 3) * s ^ 2 + 1

/-- The far piece of the Keys cubic, `a·s³ − 5a·s² + 8a·s − 4a` with
`a = −1/2`, as a function of `s = |t|`. -/
def keysFar (s : ℝ) : ℝ :=
  -(1/2) * s ^ 3 - 5 * -(1/2) * s ^ 2 + 8 * -(1/2) * s - 4 * -(1/2)

end

/-- `kernel_cubic` written with its two polynomial pieces as functions of
`|t|`. -/
lemma kernel_cubic_eq (t : ℝ) : kernel_cubic t =
    if |t| < 1 then keysNear |t| else if |t| < 2 then keysFar |t| else 0 := by
  simp only [kernel_cubic, keysNear, keysFar]
  split_ifs <;> ring

lemma keysNear_deriv_one : HasDerivAt keysNear (-(1/2)) 1 := by
  have h := (((hasDerivAt_pow 3 (1:ℝ)).const_mul ((-(1/2) + 2 : ℝ))).sub
    ((hasDerivAt_pow 2 (1:ℝ)).const_mul ((-(1/2) + 3 : ℝ)))).add_const 1
  have he : keysNear = fun s : ℝ =>
      (-(1/2) + 2) * s ^ 3 - (-(1/2) + 3) * s ^ 2 + 1 := rfl
  rw [he]
  convert h using 1
  norm_num

lemma keysFar_deriv_at (x : ℝ) :
    HasDerivAt keysFar (-(1/2) * (3 * x ^ 2) - 5 * -(1/2) * (2 * x) + 8 * -(1/2)) x := by
  have h := ((((hasDerivAt_pow 3 x).const_mul ((-(1/2) : ℝ))).sub
    ((hasDerivAt_pow 2 x).const_mul ((5 * -(1/2) : ℝ)))).add
    ((hasDerivAt_id x).const_mul ((8 * -(1/2) : ℝ)))).sub_const
    (4 * -(1/2))
  have he : keysFar = fun s : ℝ =>
      (-(1/2) * s ^ 3 - 5 * -(1/2) * s ^ 2) + 8 * -(1/2) * s - 4 * -(1/2) := by
    funext s
    unfold keysFar
    ring
  rw [he]
  convert h using 1
  ring

lemma keysFar_deriv_one : HasDerivAt keysFar (-(1/2)) 1 := by
  have h := keysFar_deriv_at 1
  convert h using 1
  norm_num

lemma keysFar_deriv_two : HasDerivAt keysFar 0 2 := by
  have h := keysFar_deriv_at 2
  convert h using 1
  norm_num

lemma keysNear_continuous : Continuous keysNear := by
  have he : keysNear = fun s : ℝ =>
      (-(1/2) + 2) * s ^ 3 - (-(1/2) + 3) * s ^ 2 + 1 := rfl
  rw [he]
  exact ((continuous_const.mul (continuous_pow 3)).sub
    (continuous_const.mul (continuous_pow 2))).add continuous_const

lemma keysFar_continuous : Continuous keysFar := by
  have he : keysFar = fun s : ℝ =>
      -(1/2) * s ^ 3 - 5 * -(1/2) * s ^ 2 + 8 * -(1/2) * s - 4 * -(1/2) := rfl
  rw [he]
  exact (((continuous_const.mul (continuous_pow 3)).sub
    (continuous_const.mul (continuous_pow 2))).add
    (continuous_const.mul continuous_id')).sub continuous_const

/-- The glued cubic kernel is continuous everywhere (in particular at the
breakpoints `|t| = 1` and `|t| = 2`, where the pieces agree in value). -/
lemma kernel_cubic_continuous : Continuous kernel_cubic := by
  have he : kernel_cubic = fun t =>
      if |t| < 1 then keysNear |t| else if |t| < 2 then keysFar |t| else 0 :=
    funext kernel_cubic_eq
  rw [he]
  apply Continuous.if
  · intro a ha
    have h1 : |a| = 1 := frontier_lt_subset_eq continuous_abs continuous_const ha
    rw [h1, if_pos (by norm_num : (1:ℝ) < 2)]
    unfold keysNear keysFar
    norm_num
  · exact keysNear_continuous.comp continuous_abs
  · apply Continuous.if
    · intro a ha
      have h2 : |a| = 2 := frontier_lt_subset_eq continuous_abs continuous_const ha
      rw [h2]
      unfold keysFar
      norm_num
    · exact keysFar_continuous.comp continuous_abs
    · exact continuous_const

/-- One-sided slope limit transfer: if `f` agrees with `g` on a one-sided
punctured neighborhood of `x` and at `x` itself, the slope of `f` inherits
the limit of the slope of `g` there. -/
lemma slope_congr_tendsto {f g : ℝ → ℝ} {x d : ℝ} {l : Filter ℝ}
    (hl : l ≤ nhdsWithin x {y | y ≠ x}) (hev : ∀ᶠ y in l, f y = g y)
    (hx : f x = g x) (hg : HasDerivAt g d x) :
    Filter.Tendsto (slope f x) l (nhds d) := by
  have ht := (hasDerivAt_iff_tendsto_slope.mp hg).mono_left hl
  apply ht.congr'
  filter_upwards [hev] with y hy
  rw [slope_def_field, slope_def_field, hy, hx]

/-- Gluing lemma: a function that agrees with a differentiable function on
the left of `x` and with another one of the same derivative on the right is
differentiable at `x`. -/
lemma hasDerivAt_glue {f gl gr : ℝ → ℝ} {x d : ℝ}
    (hevl : ∀ᶠ y in nhdsWithin x (Set.Iio x), f y = gl y) (hxl : f x = gl x)
    (hdl : HasDerivAt gl d x)
    (hevr : ∀ᶠ y in nhdsWithin x (Set.Ioi x), f y = gr y) (hxr : f x = gr x)
    (hdr : HasDerivAt gr d x) :
    HasDerivAt f d x := by
  rw [hasDerivAt_iff_tendsto_slope, ← nhds_left'_sup_nhds_right' x,
    Filter.tendsto_sup]
  constructor
  · exact slope_congr_tendsto (nhdsWithin_mono x fun y hy => ne_of_lt hy) hevl hxl hdl
  · exact slope_congr_tendsto (nhdsWithin_mono x fun y hy => ne_of_gt hy) hevr hxr hdr

lemma kernel_cubic_deriv_one : HasDerivAt kernel_cubic (-(1/2)) 1 := by
  refine hasDerivAt_glue ?_ ?_ keysNear_deriv_one ?_ ?_ keysFar_deriv_one
  · filter_upwards [Ioo_mem_nhdsWithin_Iio' (by norm_num : (0:ℝ) < 1)] with y hy
    rw [kernel_cubic_eq y, abs_of_pos hy.1, if_pos hy.2]
  · rw [kernel_cubic_eq 1, abs_one, if_neg (lt_irrefl (1:ℝ)),
      if_pos (by norm_num : (1:ℝ) < 2)]
    unfold keysNear keysFar
    norm_num
  · filter_upwards [Ioo_mem_nhdsWithin_Ioi' (by norm_num : (1:ℝ) < 2)] with y hy
    rw [kernel_cubic_eq y, abs_of_pos (by linarith [hy.1] : (0:ℝ) < y),
      if_neg (not_lt.mpr hy.1.le), if_pos hy.2]
  · rw [kernel_cubic_eq 1, abs_one, if_neg (lt_irrefl (1:ℝ)),
      if_pos (by norm_num : (1:ℝ) < 2)]

lemma kernel_cubic_deriv_two : HasDerivAt kernel_cubic 0 2 := by
  refine hasDerivAt_glue ?_ ?_ keysFar_deriv_two ?_ ?_
    (hasDerivAt_const 2 (0:ℝ))
  · filter_upwards [Ioo_mem_nhdsWithin_Iio' (by norm_num : (1:ℝ) < 2)] with y hy
    rw [kernel_cubic_eq y, abs_of_pos (by linarith [hy.1] : (0:ℝ) < y),
      if_neg (not_lt.mpr hy.1.le), if_pos hy.2]
  · rw [kernel_cubic_eq 2, abs_two, if_neg (by norm_num : ¬ (2:ℝ) < 1),
      if_neg (lt_irrefl (2:ℝ))]
    unfold keysFar
    norm_num
  · filter_upwards [self_mem_nhdsWithin] with y hy
    rw [kernel_cubic_eq y, abs_of_pos (by linarith [Set.mem_Ioi.mp hy] : (0:ℝ) < y),
      if_neg (by have := Set.mem_Ioi.mp hy; push_neg; linarith),
      if_neg (not_lt.mpr (Set.mem_Ioi.mp hy).le)]
  · rw [kernel_cubic_eq 2, abs_two, if_neg (by norm_num : ¬ (2:ℝ) < 1),
      if_neg (lt_irrefl (2:ℝ))]

/-- The cubic kernel is an even function. -/
lemma kernel_cubic_even (t : ℝ) : kernel_cubic (-t) = kernel_cubic t := by
  simp only [kernel_cubic, abs_neg]

lemma kernel_cubic_deriv_neg_one : HasDerivAt kernel_cubic (1/2) (-1) := by
  have h1 : HasDerivAt kernel_cubic (-(1/2)) (-(-1:ℝ)) := by
    rw [neg_neg]
    exact kernel_cubic_deriv_one
  have h := HasDerivAt.comp (-1) h1 (hasDerivAt_neg (-1:ℝ))
  have he : (kernel_cubic ∘ fun x : ℝ => -x) = kernel_cubic :=
    funext fun t => kernel_cubic_even t
  rw [he] at h
  convert h using 1
  norm_num

lemma kernel_cubic_deriv_neg_two : HasDerivAt kernel_cubic 0 (-2) := by
  have h1 : HasDerivAt kernel_cubic 0 (-(-2:ℝ)) := by
    rw [neg_neg]
    exact kernel_cubic_deriv_two
  have h := HasDerivAt.comp (-2) h1 (hasDerivAt_neg (-2:ℝ))
  have he : (kernel_cubic ∘ fun x : ℝ => -x) = kernel_cubic :=
    funext fun t => kernel_cubic_even t
  rw [he] at h
  convert h using 1
  norm_num

/-- C8: `kernel_cubic` is the Keys cubic with `a = −1/2`: it equals
`(a+2)|t|³ − (a+3)t² + 1` for `|t| < 1`, `a|t|³ − 5a·t² + 8a|t| − 4a` for
`1 ≤ |t| < 2`, and 0 otherwise; the adjacent pieces agree in value and first
derivative at the breakpoints `|t| = 1` and `|t| = 2` (the far piece and its
derivative both vanish at 2, matching the zero tail), so the glued kernel is
continuous and once-differentiable there — stated both as the agreement of
the pieces and as continuity of `kernel_cubic` itself together with its
differentiability at all four breakpoints `t = ±1, ±2`. -/
theorem kernel_cubic_keys :
    (∀ t : ℝ, kernel_cubic t =
      if |t| < 1 then keysNear |t| else if |t| < 2 then keysFar |t| else 0) ∧
    keysNear 1 = keysFar 1 ∧
    HasDerivAt keysNear (-(1/2)) 1 ∧ HasDerivAt keysFar (-(1/2)) 1 ∧
    keysFar 2 = 0 ∧ HasDerivAt keysFar 0 2 ∧
    Continuous kernel_cubic ∧
    HasDerivAt kernel_cubic (-(1/2)) 1 ∧ HasDerivAt kernel_cubic (1/2) (-1) ∧
    HasDerivAt kernel_cubic 0 2 ∧ HasDerivAt kernel_cubic 0 (-2) :=
  ⟨kernel_cubic_eq,
   by unfold keysNear keysFar; norm_num,
   keysNear_deriv_one, keysFar_deriv_one,
   by unfold keysFar; norm_num,
   keysFar_deriv_two,
   kernel_cubic_continuous,
   kernel_cubic_deriv_one, kernel_cubic_deriv_neg_one,
   kernel_cubic_deriv_two, kernel_cubic_deriv_neg_two⟩

/-! ### The resize pipeline (Resize::generate, lines 81-129 of the source) -/

noncomputable section

/-- The x/y bounds of the 3D input buffer (`input.dim(i).min()/extent()`);
the channel axis needs no bounds because the pipeline never clamps it. -/
structure BufferSpec where
  xmin : ℤ
  xext : ℤ
  ymin : ℤ
  yext : ℤ

/-- Halide's `clamp(v, lo, hi) = max(min(v, hi), lo)` on integer coordinates. -/
def clampI (v lo hi : ℤ) : ℤ :=
  max lo (min v hi)

/-- `BoundaryConditions::repeat_edge(input, {{xmin, xext}, {ymin, yext}})`:
out-of-range x/y coordinates are clamped into `[min, min+extent-1]`; the
channel coordinate is passed through untouched.  A pure read-only view of the
input. -/
def repeat_edge (inp : ℤ → ℤ → ℤ → ℝ) (bs : BufferSpec) (x y c : ℤ) : ℝ :=
  inp (clampI x bs.xmin (bs.xmin + bs.xext - 1))
      (clampI y bs.ymin (bs.ymin + bs.yext - 1)) c

/-- `Expr kernel_scaling = upsample ? Expr(1.0f) : scale_factor;` -/
def kernel_scaling (up : Bool) (s : ℝ) : ℝ :=
  if up then 1 else s

/-- `Expr kernel_radius = 0.5f * kernel_info[t].taps / kernel_scaling;` -/
def kernel_radius (it : InterpolationType) (up : Bool) (s : ℝ) : ℝ :=
  0.5 * (taps it : ℝ) / kernel_scaling up s

/-- `Expr kernel_taps = ceil(kernel_info[t].taps / kernel_scaling);`, used as
the integer extent of `RDom r(0, kernel_taps)`. -/
def kernel_taps (it : InterpolationType) (up : Bool) (s : ℝ) : ℕ :=
  (Int.ceil ((taps it : ℝ) / kernel_scaling up s)).toNat

/-- `Expr sourcex = (x + 0.5f) / scale_factor - 0.5f;` (identical formula for
`sourcey` with `y` substituted: the two axes use the same map). -/
def sourcex (s : ℝ) (o : ℤ) : ℝ :=
  ((o : ℝ) + 0.5) / s - 0.5

/-- `Expr beginx = cast<int>(ceil(sourcex - kernel_radius));` (and `beginy`
likewise: the `ceil` produces an integral float, so the int cast is exact). -/
def beginx (it : InterpolationType) (up : Bool) (s : ℝ) (o : ℤ) : ℤ :=
  Int.ceil (sourcex s o - kernel_radius it up s)

/-- `unnormalized_kernel_x(x, k) = kernel((k + beginx - sourcex) * kernel_scaling)`
(`unnormalized_kernel_y` is the same function of the y coordinate). -/
def unnormalized_kernel_x (it : InterpolationType) (up : Bool) (s : ℝ)
    (o : ℤ) (k : ℕ) : ℝ :=
  kernelFn it (((k : ℝ) + (beginx it up s o : ℝ) - sourcex s o) * kernel_scaling up s)

/-- `kernel_sum_x(x) = sum(unnormalized_kernel_x(x, r))` over
`RDom r(0, kernel_taps)` (`kernel_sum_y` is the same function of y). -/
def kernel_sum_x (it : InterpolationType) (up : Bool) (s : ℝ) (o : ℤ) : ℝ :=
  ∑ k ∈ Finset.range (kernel_taps it up s), unnormalized_kernel_x it up s o k

/-- `kernel_x(x, k) = unnormalized_kernel_x(x, k) / kernel_sum_x(x)`
(`kernel_y` is the same function of the y coordinate). -/
def kernel_x (it : InterpolationType) (up : Bool) (s : ℝ) (o : ℤ) (k : ℕ) : ℝ :=
  unnormalized_kernel_x it up s o k / kernel_sum_x it up s o

/-- `resized_x(x, y, c) = sum(kernel_x(x, r) * clamped(r + beginx, y, c))` —
the first pass of the upsample branch. -/
def resized_x_u (it : InterpolationType) (up : Bool) (s : ℝ)
    (inp : ℤ → ℤ → ℤ → ℝ) (bs : BufferSpec) (x y c : ℤ) : ℝ :=
  ∑ k ∈ Finset.range (kernel_taps it up s),
    kernel_x it up s x k * repeat_edge inp bs ((k : ℤ) + beginx it up s x) y c

/-- `resized_y(x, y, c) = sum(kernel_y(y, r) * resized_x(x, r + beginy, c))` —
the second pass of the upsample branch. -/
def resized_y_u (it : InterpolationType) (up : Bool) (s : ℝ)
    (inp : ℤ → ℤ → ℤ → ℝ) (bs : BufferSpec) (x y c : ℤ) : ℝ :=
  ∑ k ∈ Finset.range (kernel_taps it up s),
    kernel_x it up s y k * resized_x_u it up s inp bs x ((k : ℤ) + beginx it up s y) c

/-- `resized_y(x, y, c) = sum(kernel_y(y, r) * clamped(x, r + beginy, c))` —
the first pass of the downsample branch. -/
def resized_y_d (it : InterpolationType) (up : Bool) (s : ℝ)
    (inp : ℤ → ℤ → ℤ → ℝ) (bs : BufferSpec) (x y c : ℤ) : ℝ :=
  ∑ k ∈ Finset.range (kernel_taps it up s),
    kernel_x it up s y k * repeat_edge inp bs x ((k : ℤ) + beginx it up s y) c

/-- `resized_x(x, y, c) = sum(kernel_x(x, r) * resized_y(r + beginx, y, c))` —
the second pass of the downsample branch. -/
def resized_x_d (it : InterpolationType) (up : Bool) (s : ℝ)
    (inp : ℤ → ℤ → ℤ → ℝ) (bs : BufferSpec) (x y c : ℤ) : ℝ :=
  ∑ k ∈ Finset.range (kernel_taps it up s),
    kernel_x it up s x k * resized_y_d it up s inp bs ((k : ℤ) + beginx it up s x) y c

/-- Halide's `clamp(v, 0.0f, 1.0f) = max(min(v, 1), 0)` on the float value. -/
def clamp01 (v : ℝ) : ℝ :=
  max (min v 1) 0

/-- `output(x, y, c) = clamp(resized, 0.0f, 1.0f)` where `resized` is
`resized_y` of the x-then-y pipeline when `upsample` is set and `resized_x`
of the y-then-x pipeline otherwise. -/
def output (it : InterpolationType) (up : Bool) (s : ℝ)
    (inp : ℤ → ℤ → ℤ → ℝ) (bs : BufferSpec) (x y c : ℤ) : ℝ :=
  if up then clamp01 (resized_y_u it up s inp bs x y c)
  else clamp01 (resized_x_d it up s inp bs x y c)

end

/-! ### Claim C5: the final clamp keeps every output sample in [0, 1] -/

/-- C5: for every input buffer, scale factor, kernel variant and upsample
setting, every output sample lies in `[0, 1]`: the final clamp is
unconditional, so even overshooting weighted sums (negative lobes of the
cubic/lanczos kernels) are clamped back into range. -/
theorem output_in_unit_interval (it : InterpolationType) (up : Bool) (s : ℝ)
    (inp : ℤ → ℤ → ℤ → ℝ) (bs : BufferSpec) (x y c : ℤ) :
    0 ≤ output it up s inp bs x y c ∧ output it up s inp bs x y c ≤ 1 := by
  unfold output clamp01
  cases up <;>
    exact ⟨le_max_right _ 0, max_le (min_le_right _ 1) zero_le_one⟩

/-! ### Claim C7: the boundary handler -/

/-- C7: for every integer coordinate, including out-of-range x or y, the
boundary handler returns the input sample at the coordinate clamped into
`[min, min+extent-1]` on each spatial axis with the channel untouched; the
clamped coordinate is always inside the buffer (so no out-of-range read and
no wraparound), and an already-in-range coordinate is left unchanged.  (The
handler is a pure function of the input, so it cannot mutate it, and it is
total, so it always returns a defined value.) -/
theorem repeat_edge_spec (inp : ℤ → ℤ → ℤ → ℝ) (bs : BufferSpec) (x y c : ℤ)
    (hx : 0 < bs.xext) (hy : 0 < bs.yext) :
    repeat_edge inp bs x y c =
      inp (clampI x bs.xmin (bs.xmin + bs.xext - 1))
          (clampI y bs.ymin (bs.ymin + bs.yext - 1)) c ∧
    bs.xmin ≤ clampI x bs.xmin (bs.xmin + bs.xext - 1) ∧
    clampI x bs.xmin (bs.xmin + bs.xext - 1) ≤ bs.xmin + bs.xext - 1 ∧
    bs.ymin ≤ clampI y bs.ymin (bs.ymin + bs.yext - 1) ∧
    clampI y bs.ymin (bs.ymin + bs.yext - 1) ≤ bs.ymin + bs.yext - 1 ∧
    (bs.xmin ≤ x → x ≤ bs.xmin + bs.xext - 1 →
      clampI x bs.xmin (bs.xmin + bs.xext - 1) = x) ∧
    (bs.ymin ≤ y → y ≤ bs.ymin + bs.yext - 1 →
      clampI y bs.ymin (bs.ymin + bs.yext - 1) = y) := by
  unfold repeat_edge clampI
  refine ⟨rfl, ?_, ?_, ?_, ?_, ?_, ?_⟩ <;> omega

/-- C7 witness: the boundary handler's contract instantiated on a concrete
2×2 buffer at the out-of-range coordinate (5, -3). -/
theorem repeat_edge_spec_witness :
    ((0:ℤ) < 2 ∧ (0:ℤ) < 2) ∧
      (repeat_edge (fun a b _ => (a : ℝ) + 2 * (b : ℝ)) ⟨0, 2, 0, 2⟩ 5 (-3) 1 =
        (fun a b (_ : ℤ) => (a : ℝ) + 2 * (b : ℝ)) (clampI 5 0 (0 + 2 - 1))
          (clampI (-3) 0 (0 + 2 - 1)) 1 ∧
      (0:ℤ) ≤ clampI 5 0 (0 + 2 - 1) ∧ clampI 5 0 (0 + 2 - 1) ≤ 0 + 2 - 1 ∧
      (0:ℤ) ≤ clampI (-3) 0 (0 + 2 - 1) ∧ clampI (-3) 0 (0 + 2 - 1) ≤ 0 + 2 - 1 ∧
      ((0:ℤ) ≤ 5 → (5:ℤ) ≤ 0 + 2 - 1 → clampI 5 0 (0 + 2 - 1) = 5) ∧
      ((0:ℤ) ≤ -3 → (-3:ℤ) ≤ 0 + 2 - 1 → clampI (-3) 0 (0 + 2 - 1) = -3)) := by
  exact ⟨⟨by decide, by decide⟩,
    repeat_edge_spec (fun a b _ => (a : ℝ) + 2 * (b : ℝ)) ⟨0, 2, 0, 2⟩ 5 (-3) 1
      (by decide) (by decide)⟩

/-! ### Claim C10: channels never mix -/

/-- C10: the output at channel `c` depends only on input samples at channel
`c`: if two input buffers agree everywhere on channel `c`, the two outputs
agree everywhere on channel `c`, for every kernel, scale and upsample
setting.  (The weight tables `kernel_x`/`kernel_y` take only the output
coordinate along their own axis and the configuration as arguments, so they
cannot depend on the channel or the orthogonal coordinate.) -/
theorem output_channel_isolated (it : InterpolationType) (up : Bool) (s : ℝ)
    (bs : BufferSpec) (i1 i2 : ℤ → ℤ → ℤ → ℝ) (c : ℤ)
    (h : ∀ a b : ℤ, i1 a b c = i2 a b c) :
    ∀ x y : ℤ, output it up s i1 bs x y c = output it up s i2 bs x y c := by
  have hre : ∀ a b : ℤ, repeat_edge i1 bs a b c = repeat_edge i2 bs a b c :=
    fun a b => h _ _
  have hxu : ∀ a b : ℤ,
      resized_x_u it up s i1 bs a b c = resized_x_u it up s i2 bs a b c :=
    fun a b => Finset.sum_congr rfl fun k _ => by rw [hre]
  have hyu : ∀ a b : ℤ,
      resized_y_u it up s i1 bs a b c = resized_y_u it up s i2 bs a b c :=
    fun a b => Finset.sum_congr rfl fun k _ => by rw [hxu]
  have hyd : ∀ a b : ℤ,
      resized_y_d it up s i1 bs a b c = resized_y_d it up s i2 bs a b c :=
    fun a b => Finset.sum_congr rfl fun k _ => by rw [hre]
  have hxd : ∀ a b : ℤ,
      resized_x_d it up s i1 bs a b c = resized_x_d it up s i2 bs a b c :=
    fun a b => Finset.sum_congr rfl fun k _ => by rw [hyd]
  intro x y
  unfold output
  cases up
  · rw [if_neg (by simp), if_neg (by simp), hxd]
  · rw [if_pos rfl, if_pos rfl, hyu]

/-- C10 witness: two concrete buffers that differ on channel 1 but agree on
channel 0 produce the same output sample at a channel-0 coordinate. -/
theorem output_channel_isolated_witness :
    output .Cubic true 2 (fun _ _ d => if d = 0 then (0:ℝ) else 1) ⟨0, 4, 0, 4⟩ 5 7 0 =
      output .Cubic true 2 (fun _ _ _ => (0:ℝ)) ⟨0, 4, 0, 4⟩ 5 7 0 := by
  exact output_channel_isolated .Cubic true 2 ⟨0, 4, 0, 4⟩ _ _ 0
    (fun a b => by norm_num) 5 7

/-! ### Claim C4: x-then-y versus y-then-x ordering -/

/-- C4 (amended): with the kernel tables held fixed (same interpolation type,
same upsample flag, hence the same `kernel_scaling` and weights), the
x-then-y composition built by the upsample branch and the y-then-x
composition built by the downsample branch produce identical outputs
everywhere: the pure ordering is a performance choice.  (The flag itself is
not: it also selects `kernel_scaling`, which changes the weights and hence
the numerical result when `scale_factor ≠ 1` — see the counterexample.) -/
theorem order_swap_equal (it : InterpolationType) (up : Bool) (s : ℝ)
    (inp : ℤ → ℤ → ℤ → ℝ) (bs : BufferSpec) (x y c : ℤ) :
    clamp01 (resized_y_u it up s inp bs x y c) =
      clamp01 (resized_x_d it up s inp bs x y c) := by
  have h : resized_y_u it up s inp bs x y c = resized_x_d it up s inp bs x y c := by
    unfold resized_y_u resized_x_d resized_x_u resized_y_d
    simp only [Finset.mul_sum]
    rw [Finset.sum_comm]
    exact Finset.sum_congr rfl fun j _ => Finset.sum_congr rfl fun i _ => by ring
  rw [h]

/-! ### Claim C2: normalized tap weights sum to 1 -/

/-- C2 (amended): for every output coordinate, kernel variant, scale factor
and upsample setting, *provided the unnormalized kernel sum is non-zero*,
the normalized tap weights sum to exactly 1.  (Without that proviso the
claim fails: the counterexample configuration drives the sum to 0.) -/
theorem kernel_x_normalized (it : InterpolationType) (up : Bool) (s : ℝ)
    (o : ℤ) (h : kernel_sum_x it up s o ≠ 0) :
    ∑ k ∈ Finset.range (kernel_taps it up s), kernel_x it up s o k = 1 := by
  unfold kernel_x
  rw [← Finset.sum_div]
  exact div_self h

/-! #### Concrete evaluations for the counterexample configuration
(box kernel, `upsample = false`, `scale_factor = 3`) -/

/-- With the box kernel and `kernel_scaling = 3` there is a single tap. -/
lemma kernel_taps_box_down3 : kernel_taps .Box false 3 = 1 := by
  unfold kernel_taps kernel_scaling taps
  rw [if_neg (by simp)]
  rw [show ((1:ℕ):ℝ)/3 = 1/3 by norm_num]
  rw [show Int.ceil ((1:ℝ)/3) = 1 by rw [Int.ceil_eq_iff]; norm_num]
  rfl

lemma sourcex_3_0 : sourcex 3 0 = -(1/3) := by
  unfold sourcex
  push_cast
  norm_num

lemma kernel_radius_box_down3 : kernel_radius .Box false 3 = 1/6 := by
  unfold kernel_radius kernel_scaling taps
  rw [if_neg (by simp)]
  norm_num

lemma beginx_box_down3_0 : beginx .Box false 3 0 = 0 := by
  unfold beginx
  rw [sourcex_3_0, kernel_radius_box_down3]
  rw [show (-(1/3) - 1/6 : ℝ) = -(1/2) by norm_num]
  rw [Int.ceil_eq_iff]
  constructor <;> norm_num

/-- At output coordinate 0 the single box tap evaluates the kernel at
offset exactly 1, outside the box support, so the unnormalized weight is 0. -/
lemma unnormalized_box_down3_0 : unnormalized_kernel_x .Box false 3 0 0 = 0 := by
  unfold unnormalized_kernel_x
  rw [beginx_box_down3_0, sourcex_3_0]
  rw [show kernel_scaling false 3 = 3 by unfold kernel_scaling; rw [if_neg (by simp)]]
  rw [show (((0:ℕ):ℝ) + ((0:ℤ):ℝ) - -(1/3)) * 3 = 1 by push_cast; norm_num]
  show kernel_box 1 = 0
  unfold kernel_box
  rw [if_neg]
  rw [abs_le]
  norm_num

/-- C2 counterexample: with the box kernel, `upsample = false` (the
generator's default) and the finite positive `scale_factor = 3`, at output
coordinate 0 the normalized tap weights do *not* sum to 1: the unnormalized
sum is 0, so every normalized weight is a division by zero (NaN in the float
code, 0 in this real model) and the sum is 0. -/
theorem kernel_x_normalized_counterexample :
    ∑ k ∈ Finset.range (kernel_taps .Box false 3), kernel_x .Box false 3 0 k ≠ 1 := by
  rw [kernel_taps_box_down3, Finset.sum_range_one]
  unfold kernel_x
  rw [unnormalized_box_down3_0, zero_div]
  norm_num

/-! #### Concrete evaluations for the witness configuration
(box kernel, `upsample = true`, `scale_factor = 2`) -/

lemma kernel_taps_box_up : kernel_taps .Box true 2 = 1 := by
  unfold kernel_taps kernel_scaling taps
  rw [if_pos rfl]
  rw [show ((1:ℕ):ℝ)/1 = 1 by norm_num, Int.ceil_one]
  rfl

lemma sourcex_2_0 : sourcex 2 0 = -(1/4) := by
  unfold sourcex
  push_cast
  norm_num

lemma beginx_box_up2_0 : beginx .Box true 2 0 = 0 := by
  unfold beginx
  rw [sourcex_2_0]
  rw [show kernel_radius .Box true 2 = 1/2 by
    unfold kernel_radius kernel_scaling taps
    rw [if_pos rfl]
    norm_num]
  rw [show (-(1/4) - 1/2 : ℝ) = -(3/4) by norm_num]
  rw [Int.ceil_eq_iff]
  constructor <;> norm_num

lemma kernel_sum_box_up2_0 : kernel_sum_x .Box true 2 0 = 1 := by
  unfold kernel_sum_x
  rw [kernel_taps_box_up, Finset.sum_range_one]
  unfold unnormalized_kernel_x
  rw [beginx_box_up2_0, sourcex_2_0]
  rw [show kernel_scaling true 2 = 1 by unfold kernel_scaling; rw [if_pos rfl]]
  rw [show (((0:ℕ):ℝ) + ((0:ℤ):ℝ) - -(1/4)) * 1 = 1/4 by push_cast; norm_num]
  show kernel_box (1/4) = 1
  unfold kernel_box
  rw [if_pos]
  rw [abs_le]
  norm_num

/-- C2 witness: box kernel upsampling by 2 at output coordinate 0 — the
kernel sum is 1 (hence non-zero) and the normalized weights sum to 1. -/
theorem kernel_x_normalized_witness :
    kernel_sum_x .Box true 2 0 ≠ 0 ∧
      ∑ k ∈ Finset.range (kernel_taps .Box true 2), kernel_x .Box true 2 0 k = 1 := by
  have h : kernel_sum_x .Box true 2 0 ≠ 0 := by
    rw [kernel_sum_box_up2_0]
    norm_num
  exact ⟨h, kernel_x_normalized .Box true 2 0 h⟩

/-! ### Claim C6: the kernel sum and division by zero -/

lemma sourcex_3_3 : sourcex 3 3 = 2/3 := by
  unfold sourcex
  push_cast
  norm_num

lemma beginx_box_down3_3 : beginx .Box false 3 3 = 1 := by
  unfold beginx
  rw [sourcex_3_3, kernel_radius_box_down3]
  rw [show (2/3 - 1/6 : ℝ) = 1/2 by norm_num]
  rw [Int.ceil_eq_iff]
  constructor <;> norm_num

/-- The unnormalized tap-weight sum can vanish for a finite positive scale
factor: with the box kernel, `upsample = false` (the generator's default)
and `scale_factor = 3`, at output coordinate 3 the single tap evaluates the
box kernel at scaled offset 1, outside its support, and the sum is exactly
0 — the subsequent normalization divides by zero.  (Relevant to claim C6,
which this instance refutes as literally stated.) -/
theorem kernel_sum_zero_box : kernel_sum_x .Box false 3 3 = 0 := by
  unfold kernel_sum_x
  rw [kernel_taps_box_down3, Finset.sum_range_one]
  unfold unnormalized_kernel_x
  rw [beginx_box_down3_3, sourcex_3_3]
  rw [show kernel_scaling false 3 = 3 by unfold kernel_scaling; rw [if_neg (by simp)]]
  rw [show (((0:ℕ):ℝ) + ((1:ℤ):ℝ) - 2/3) * 3 = 1 by push_cast; norm_num]
  show kernel_box 1 = 0
  unfold kernel_box
  rw [if_neg]
  rw [abs_le]
  norm_num

/-- Every box-kernel weight is non-negative. -/
lemma kernel_box_nonneg (z : ℝ) : 0 ≤ kernel_box z := by
  unfold kernel_box
  split_ifs <;> norm_num

/-- Every linear-kernel weight is non-negative. -/
lemma kernel_linear_nonneg (z : ℝ) : 0 ≤ kernel_linear z := by
  unfold kernel_linear
  split_ifs with h
  · have := abs_nonneg z
    linarith
  · exact le_refl 0


/-- When `kernel_scaling ≤ 1`, the first box tap lands inside the box
support (scaled offset in `[-1/2, 1/2)`), so the box kernel sum is at
least 1 and in particular non-zero. -/
lemma kernel_sum_box_pos (up : Bool) (s : ℝ) (o : ℤ)
    (h0 : 0 < kernel_scaling up s) (h1 : kernel_scaling up s ≤ 1) :
    0 < kernel_sum_x .Box up s o := by
  set κ := kernel_scaling up s with hκ
  set σ := sourcex s o with hσ
  have hR : kernel_radius .Box up s = 0.5 * 1 / κ := by
    unfold kernel_radius
    rw [show (taps .Box : ℕ) = 1 from rfl, ← hκ]
    push_cast
    ring
  have hT : 1 ≤ kernel_taps .Box up s := by
    unfold kernel_taps
    rw [show (taps .Box : ℕ) = 1 from rfl, ← hκ]
    have hge : (1:ℝ) ≤ ((1:ℕ):ℝ) / κ := by
      rw [le_div_iff₀ h0]
      push_cast
      linarith
    have hz : (1:ℤ) ≤ Int.ceil (((1:ℕ):ℝ) / κ) := by
      have hc := Int.le_ceil (((1:ℕ):ℝ) / κ)
      have : (1:ℝ) ≤ (Int.ceil (((1:ℕ):ℝ) / κ) : ℝ) := le_trans hge hc
      exact_mod_cast this
    omega
  have hfirst : unnormalized_kernel_x .Box up s o 0 = 1 := by
    unfold unnormalized_kernel_x beginx
    rw [← hκ, ← hσ, hR]
    set b := Int.ceil (σ - 0.5 * 1 / κ) with hb
    have hbl : σ - 0.5 * 1 / κ ≤ (b : ℝ) := Int.le_ceil _
    have hbu : (b : ℝ) < σ - 0.5 * 1 / κ + 1 := Int.ceil_lt_add_one _
    have harg : (((0:ℕ):ℝ) + (b:ℝ) - σ) * κ = ((b:ℝ) - σ) * κ := by
      push_cast
      ring
    show kernel_box ((((0:ℕ):ℝ) + (b:ℝ) - σ) * κ) = 1
    rw [harg]
    have hzl : -(0.5) ≤ ((b:ℝ) - σ) * κ := by
      calc -(0.5) = (-(0.5 * 1 / κ)) * κ := by field_simp
        _ ≤ ((b:ℝ) - σ) * κ :=
          mul_le_mul_of_nonneg_right (by linarith) h0.le
    have hzu : ((b:ℝ) - σ) * κ ≤ 0.5 := by
      have e2 : ((b:ℝ) - σ) * κ ≤ ((-(0.5 * 1 / κ)) + 1) * κ :=
        mul_le_mul_of_nonneg_right (by linarith) h0.le
      have e3 : ((-(0.5 * 1 / κ)) + 1) * κ = -(0.5) + κ := by
        field_simp
      rw [e3] at e2
      linarith
    unfold kernel_box
    rw [if_pos (abs_le.mpr ⟨hzl, hzu⟩)]
  have hmem : 0 ∈ Finset.range (kernel_taps .Box up s) := by
    rw [Finset.mem_range]
    omega
  have hsum : unnormalized_kernel_x .Box up s o 0 ≤ kernel_sum_x .Box up s o :=
    Finset.single_le_sum (fun i _ => by
      unfold unnormalized_kernel_x
      exact kernel_box_nonneg _) hmem
  rw [hfirst] at hsum
  linarith

/-- When `kernel_scaling ≤ 1`, the tap at the integer nearest the source
coordinate is within the linear kernel's support with weight at least 1/2,
so the linear kernel sum is positive. -/
lemma kernel_sum_linear_pos (up : Bool) (s : ℝ) (o : ℤ)
    (h0 : 0 < kernel_scaling up s) (h1 : kernel_scaling up s ≤ 1) :
    0 < kernel_sum_x .Linear up s o := by
  set κ := kernel_scaling up s with hκ
  set σ := sourcex s o with hσ
  have hinv : (1:ℝ) ≤ 1 / κ := by
    rw [le_div_iff₀ h0]
    linarith
  have hR : kernel_radius .Linear up s = 1 / κ := by
    unfold kernel_radius
    rw [show (taps .Linear : ℕ) = 2 from rfl, ← hκ]
    push_cast
    norm_num
  set b := beginx .Linear up s o with hbdef
  have hbval : b = Int.ceil (σ - 1 / κ) := by
    rw [hbdef]
    unfold beginx
    rw [hR, ← hσ]
  set T := kernel_taps .Linear up s with hTdef
  set j0 := Int.floor (σ + 1/2) with hj0
  have hj0le : (j0 : ℝ) ≤ σ + 1/2 := Int.floor_le _
  have hj0gt : σ - 1/2 < (j0 : ℝ) := by
    have := Int.sub_one_lt_floor (σ + 1/2)
    rw [← hj0] at this
    linarith
  have hbj : b ≤ j0 := by
    rw [hbval]
    have hstep : Int.ceil (σ - 1 / κ) ≤ Int.ceil (σ - 1/2) :=
      Int.ceil_le_ceil (by linarith)
    have hstep2 : Int.ceil (σ - 1/2) ≤ j0 := Int.ceil_le.mpr (by linarith)
    exact le_trans hstep hstep2
  have hTreal : (2:ℝ) / κ ≤ (T : ℝ) := by
    rw [hTdef]
    unfold kernel_taps
    rw [show (taps .Linear : ℕ) = 2 from rfl, ← hκ]
    have hpos2 : (0:ℝ) < ((2:ℕ):ℝ) / κ := by positivity
    have hle := Int.le_ceil (((2:ℕ):ℝ) / κ)
    have hcz : (0:ℤ) ≤ Int.ceil (((2:ℕ):ℝ) / κ) :=
      by exact_mod_cast le_of_lt (lt_of_lt_of_le hpos2 hle)
    have hcast : ((Int.ceil (((2:ℕ):ℝ) / κ)).toNat : ℝ) =
        ((Int.ceil (((2:ℕ):ℝ) / κ) : ℤ) : ℝ) := by
      rw [show ((Int.ceil (((2:ℕ):ℝ) / κ)).toNat : ℝ) =
          (((Int.ceil (((2:ℕ):ℝ) / κ)).toNat : ℤ) : ℝ) by push_cast; ring]
      rw [Int.toNat_of_nonneg hcz]
    rw [hcast]
    push_cast at hle ⊢
    linarith
  have hjb : j0 < b + (T : ℤ) := by
    have hble : σ - 1 / κ ≤ (b : ℝ) := by
      rw [hbval]
      exact Int.le_ceil _
    have : (j0 : ℝ) < (b : ℝ) + (T : ℝ) := by
      have hk1 : σ + 1 ≤ (b:ℝ) + (T:ℝ) := by
        have : σ - 1/κ + 2/κ = σ + 1/κ := by ring
        linarith
      linarith
    exact_mod_cast this
  set k0 := (j0 - b).toNat with hk0def
  have hk0T : k0 < T := by omega
  have hk0cast : ((k0 : ℕ) : ℝ) = (j0 : ℝ) - (b : ℝ) := by
    have : ((k0 : ℕ) : ℤ) = j0 - b := by omega
    exact_mod_cast this
  have habsj : |(j0 : ℝ) - σ| ≤ 1/2 := abs_le.mpr ⟨by linarith, by linarith⟩
  have hweight : 1/2 ≤ unnormalized_kernel_x .Linear up s o k0 := by
    unfold unnormalized_kernel_x
    rw [← hbdef, ← hκ, ← hσ]
    have harg : (((k0:ℕ):ℝ) + (b:ℝ) - σ) * κ = ((j0:ℝ) - σ) * κ := by
      rw [hk0cast]
      ring
    rw [harg]
    have habs : |((j0:ℝ) - σ) * κ| ≤ κ/2 := by
      rw [abs_mul, abs_of_pos h0]
      calc |(j0:ℝ) - σ| * κ ≤ (1/2) * κ :=
            mul_le_mul_of_nonneg_right habsj h0.le
        _ = κ/2 := by ring
    show (1:ℝ)/2 ≤ kernel_linear (((j0:ℝ) - σ) * κ)
    unfold kernel_linear
    rw [if_pos (by linarith : |((j0:ℝ) - σ) * κ| < 1)]
    linarith [abs_nonneg (((j0:ℝ) - σ) * κ)]
  have hmem : k0 ∈ Finset.range T := by
    rw [Finset.mem_range]
    exact hk0T
  have hsum : unnormalized_kernel_x .Linear up s o k0 ≤ kernel_sum_x .Linear up s o :=
    Finset.single_le_sum (fun i _ => by
      unfold unnormalized_kernel_x
      exact kernel_linear_nonneg _) hmem
  linarith

/-- The Keys cubic (`a = −1/2`) is a partition of unity on the unit-spaced
offset grid `f−2, f−1, f, f+1` for `f ∈ [0, 1)`. -/
lemma keys_partition (f : ℝ) (h0 : 0 ≤ f) (h1 : f < 1) :
    kernel_cubic (f - 2) + kernel_cubic (f - 1) + kernel_cubic f +
      kernel_cubic (f + 1) = 1 := by
  rcases eq_or_lt_of_le h0 with h | h
  · rw [← h]
    norm_num [kernel_cubic]
  · simp only [kernel_cubic]
    rw [abs_of_nonpos (by linarith : f - 2 ≤ 0),
        abs_of_nonpos (by linarith : f - 1 ≤ 0),
        abs_of_nonneg h0,
        abs_of_nonneg (by linarith : (0:ℝ) ≤ f + 1)]
    split_ifs <;> first | ring1 | (exfalso; linarith)

/-- With `kernel_scaling = 1` the cubic pipeline has exactly 4 taps at
unit-spaced offsets `f−2 … f+1` with `f ∈ [0,1)`, so by the Keys partition
of unity the unnormalized cubic sum is exactly 1. -/
lemma kernel_sum_cubic_one (up : Bool) (s : ℝ) (o : ℤ)
    (hks : kernel_scaling up s = 1) :
    kernel_sum_x .Cubic up s o = 1 := by
  set σ := sourcex s o with hσ
  have hR4 : kernel_radius .Cubic up s = 2 := by
    unfold kernel_radius
    rw [show (taps .Cubic : ℕ) = 4 from rfl, hks]
    push_cast
    norm_num
  have hT : kernel_taps .Cubic up s = 4 := by
    unfold kernel_taps
    rw [show (taps .Cubic : ℕ) = 4 from rfl, hks, div_one,
      show ((4:ℕ):ℝ) = ((4:ℤ):ℝ) by push_cast; ring, Int.ceil_intCast]
    rfl
  set b := beginx .Cubic up s o with hbdef
  have hbl : σ - 2 ≤ (b:ℝ) := by
    rw [hbdef]
    unfold beginx
    rw [hR4, ← hσ]
    exact Int.le_ceil _
  have hbu : (b:ℝ) < σ - 2 + 1 := by
    rw [hbdef]
    unfold beginx
    rw [hR4, ← hσ]
    exact Int.ceil_lt_add_one _
  set f := (b:ℝ) - σ + 2 with hf
  have hf0 : 0 ≤ f := by rw [hf]; linarith
  have hf1 : f < 1 := by rw [hf]; linarith
  have hu : ∀ k : ℕ,
      unnormalized_kernel_x .Cubic up s o k = kernel_cubic (f + ((k:ℝ) - 2)) := by
    intro k
    unfold unnormalized_kernel_x
    rw [show kernelFn .Cubic = kernel_cubic from rfl]
    rw [← hbdef, hks, mul_one, ← hσ]
    congr 1
    rw [hf]
    ring
  unfold kernel_sum_x
  rw [hT, Finset.sum_range_succ, Finset.sum_range_succ, Finset.sum_range_succ,
    Finset.sum_range_one]
  rw [hu 0, hu 1, hu 2, hu 3]
  rw [show f + (((0:ℕ):ℝ) - 2) = f - 2 by push_cast; ring,
      show f + (((1:ℕ):ℝ) - 2) = f - 1 by push_cast; ring,
      show f + (((2:ℕ):ℝ) - 2) = f by push_cast; ring,
      show f + (((3:ℕ):ℝ) - 2) = f + 1 by push_cast; ring]
  exact keys_partition f hf0 hf1

/-- Partial non-vanishing guarantees for the kernel sums in consistent
configurations (upsample flag matching the scale direction, so that
`kernel_scaling ≤ 1`): the box and linear sums are non-zero at every
output coordinate, and with `kernel_scaling = 1` (upsampling) the cubic
sum is exactly 1 by the Keys partition of unity.  These cover part of
claim C6's guarantee; the lanczos sum and the cubic sum under downsampling
are not settled by this development. -/
theorem kernel_sum_nonzero_partial :
    (∀ (up : Bool) (s : ℝ) (o : ℤ),
      0 < kernel_scaling up s → kernel_scaling up s ≤ 1 →
        kernel_sum_x .Box up s o ≠ 0) ∧
    (∀ (up : Bool) (s : ℝ) (o : ℤ),
      0 < kernel_scaling up s → kernel_scaling up s ≤ 1 →
        kernel_sum_x .Linear up s o ≠ 0) ∧
    (∀ (up : Bool) (s : ℝ) (o : ℤ), kernel_scaling up s = 1 →
        kernel_sum_x .Cubic up s o = 1) :=
  ⟨fun up s o h0 h1 => (kernel_sum_box_pos up s o h0 h1).ne',
   fun up s o h0 h1 => (kernel_sum_linear_pos up s o h0 h1).ne',
   fun up s o hks => kernel_sum_cubic_one up s o hks⟩

/-- Instance of the partial non-vanishing guarantee: the linear conjunct
at the concrete configuration `upsample = true`, `scale_factor = 2`,
coordinate 0. -/
theorem kernel_sum_nonzero_partial_witness :
    (0 < kernel_scaling true 2 ∧ kernel_scaling true 2 ≤ 1) ∧
      kernel_sum_x .Linear true 2 0 ≠ 0 := by
  have hks : kernel_scaling true 2 = 1 := by
    unfold kernel_scaling
    rw [if_pos rfl]
  refine ⟨⟨by rw [hks]; norm_num, by rw [hks]⟩, ?_⟩
  exact kernel_sum_nonzero_partial.2.1 true 2 0 (by rw [hks]; norm_num) (by rw [hks])

/-! ### Claim C3: identity scale (`scale_factor = 1`) -/

/-- Index of the tap that lands exactly on the source pixel when
`scale_factor = 1` (half the native tap count, rounded down). -/
def center (it : InterpolationType) : ℕ :=
  taps it / 2

lemma center_lt_taps (it : InterpolationType) : center it < taps it := by
  cases it <;> decide

/-- The code's lanczos kernel vanishes at every non-zero integer. -/
lemma kernel_lanczos_int (j : ℤ) (hj : j ≠ 0) : kernel_lanczos (j : ℝ) = 0 := by
  unfold kernel_lanczos
  split_ifs with h1 h2
  · rfl
  · exfalso
    apply hj
    exact_mod_cast h2
  · rw [sinc_intCast, zero_mul]

/-- Every kernel returns weight 1 at offset 0. -/
lemma kernelFn_zero (it : InterpolationType) : kernelFn it 0 = 1 := by
  cases it
  · show kernel_box 0 = 1
    unfold kernel_box
    rw [if_pos (by rw [abs_zero]; norm_num)]
  · show kernel_linear 0 = 1
    unfold kernel_linear
    rw [if_pos (by rw [abs_zero]; norm_num), abs_zero]
    norm_num
  · show kernel_cubic 0 = 1
    simp only [kernel_cubic]
    rw [abs_zero]
    norm_num
  · show kernel_lanczos 0 = 1
    unfold kernel_lanczos
    rw [if_neg (by norm_num), if_pos rfl]

/-- Every kernel returns weight 0 at every non-zero integer offset. -/
lemma kernelFn_int (it : InterpolationType) (j : ℤ) (hj0 : j ≠ 0) :
    kernelFn it (j : ℝ) = 0 := by
  have h1 : (1:ℤ) ≤ |j| := Int.one_le_abs hj0
  have habs : (1:ℝ) ≤ |(j:ℝ)| := by
    have hc : ((1:ℤ):ℝ) ≤ ((|j|:ℤ):ℝ) := by exact_mod_cast h1
    rw [Int.cast_abs] at hc
    push_cast at hc
    exact hc
  cases it
  · show kernel_box _ = 0
    unfold kernel_box
    rw [if_neg (by push_neg; linarith)]
  · show kernel_linear _ = 0
    unfold kernel_linear
    rw [if_neg (by push_neg; linarith)]
  · show kernel_cubic _ = 0
    simp only [kernel_cubic]
    by_cases h2 : |(j:ℝ)| < 2
    · have hone : |(j:ℝ)| = 1 := by
        have hz2 : |j| < 2 := by
          have : ((|j|:ℤ):ℝ) < 2 := by rw [Int.cast_abs]; exact h2
          exact_mod_cast this
        have hz1 : |j| = 1 := by omega
        rw [← Int.cast_abs, hz1]
        norm_num
      rw [hone]
      norm_num
    · rw [if_neg (by linarith), if_neg h2]
  · show kernel_lanczos _ = 0
    exact kernel_lanczos_int j hj0

/-- At unit kernel scaling the offset grid is `k − center`, so the kernel
weight is the Kronecker delta at the center tap. -/
lemma kernelFn_delta (it : InterpolationType) (k : ℕ) :
    kernelFn it ((k:ℝ) - ((center it : ℕ) : ℝ)) = if k = center it then 1 else 0 := by
  by_cases hkc : k = center it
  · rw [hkc, if_pos rfl, sub_self]
    exact kernelFn_zero it
  · rw [if_neg hkc]
    rw [show (k:ℝ) - ((center it : ℕ) : ℝ) = (((k:ℤ) - (center it : ℕ) : ℤ) : ℝ) by
      push_cast; ring]
    exact kernelFn_int it _ (by omega)

lemma kernel_scaling_one (up : Bool) : kernel_scaling up 1 = 1 := by
  unfold kernel_scaling
  cases up <;> simp

lemma sourcex_one (o : ℤ) : sourcex 1 o = (o : ℝ) := by
  unfold sourcex
  rw [div_one]
  ring

lemma kernel_taps_one (it : InterpolationType) (up : Bool) :
    kernel_taps it up 1 = taps it := by
  unfold kernel_taps
  rw [kernel_scaling_one, div_one, Int.ceil_natCast]
  exact Int.toNat_natCast _

lemma beginx_one (it : InterpolationType) (up : Bool) (o : ℤ) :
    beginx it up 1 o = o - (center it : ℤ) := by
  unfold beginx kernel_radius
  rw [sourcex_one, kernel_scaling_one, div_one]
  cases it
  · rw [show ((taps .Box : ℕ) : ℝ) = 1 by norm_num [taps],
      show ((center .Box : ℕ) : ℤ) = 0 by norm_num [center, taps]]
    rw [Int.ceil_eq_iff]
    constructor <;> push_cast <;> linarith
  · rw [show ((taps .Linear : ℕ) : ℝ) = 2 by norm_num [taps],
      show ((center .Linear : ℕ) : ℤ) = 1 by norm_num [center, taps]]
    rw [Int.ceil_eq_iff]
    constructor <;> push_cast <;> linarith
  · rw [show ((taps .Cubic : ℕ) : ℝ) = 4 by norm_num [taps],
      show ((center .Cubic : ℕ) : ℤ) = 2 by norm_num [center, taps]]
    rw [Int.ceil_eq_iff]
    constructor <;> push_cast <;> linarith
  · rw [show ((taps .Lanczos : ℕ) : ℝ) = 6 by norm_num [taps],
      show ((center .Lanczos : ℕ) : ℤ) = 3 by norm_num [center, taps]]
    rw [Int.ceil_eq_iff]
    constructor <;> push_cast <;> linarith

/-- At `scale_factor = 1` every unnormalized weight is the Kronecker delta
at the center tap. -/
lemma unnormalized_one (it : InterpolationType) (up : Bool) (o : ℤ) (k : ℕ) :
    unnormalized_kernel_x it up 1 o k = if k = center it then 1 else 0 := by
  unfold unnormalized_kernel_x
  rw [kernel_scaling_one, mul_one, beginx_one, sourcex_one]
  have h := kernelFn_delta it k
  convert h using 2
  push_cast
  ring

lemma kernel_sum_one (it : InterpolationType) (up : Bool) (o : ℤ) :
    kernel_sum_x it up 1 o = 1 := by
  unfold kernel_sum_x
  rw [kernel_taps_one]
  rw [Finset.sum_congr rfl (fun k _ => unnormalized_one it up o k)]
  rw [Finset.sum_ite_eq' (Finset.range (taps it)) (center it) (fun _ => (1:ℝ))]
  rw [if_pos (Finset.mem_range.mpr (center_lt_taps it))]

lemma kernel_x_one (it : InterpolationType) (up : Bool) (o : ℤ) (k : ℕ) :
    kernel_x it up 1 o k = if k = center it then 1 else 0 := by
  unfold kernel_x
  rw [kernel_sum_one, unnormalized_one, div_one]

/-- At `scale_factor = 1` a resampling pass collapses to the identity: the
weighted sum over taps reduces to the sample at the output coordinate. -/
lemma sum_delta_collapse (it : InterpolationType) (up : Bool) (o : ℤ) (g : ℤ → ℝ) :
    ∑ k ∈ Finset.range (kernel_taps it up 1),
      kernel_x it up 1 o k * g ((k : ℤ) + beginx it up 1 o) = g o := by
  rw [kernel_taps_one]
  rw [Finset.sum_congr rfl (fun k _ => by
    rw [kernel_x_one it up o k, ite_mul, one_mul, zero_mul])]
  rw [Finset.sum_ite_eq' (Finset.range (taps it)) (center it)
    (fun k => g ((k : ℤ) + beginx it up 1 o))]
  rw [if_pos (Finset.mem_range.mpr (center_lt_taps it))]
  rw [beginx_one]
  congr 1
  omega

lemma resized_y_d_one (it : InterpolationType) (up : Bool)
    (inp : ℤ → ℤ → ℤ → ℝ) (bs : BufferSpec) (x y c : ℤ) :
    resized_y_d it up 1 inp bs x y c = repeat_edge inp bs x y c := by
  unfold resized_y_d
  exact sum_delta_collapse it up y (fun b => repeat_edge inp bs x b c)

lemma resized_x_d_one (it : InterpolationType) (up : Bool)
    (inp : ℤ → ℤ → ℤ → ℝ) (bs : BufferSpec) (x y c : ℤ) :
    resized_x_d it up 1 inp bs x y c = repeat_edge inp bs x y c := by
  unfold resized_x_d
  have h := sum_delta_collapse it up x (fun a => resized_y_d it up 1 inp bs a y c)
  exact h.trans (resized_y_d_one it up inp bs x y c)

lemma resized_x_u_one (it : InterpolationType) (up : Bool)
    (inp : ℤ → ℤ → ℤ → ℝ) (bs : BufferSpec) (x y c : ℤ) :
    resized_x_u it up 1 inp bs x y c = repeat_edge inp bs x y c := by
  unfold resized_x_u
  exact sum_delta_collapse it up x (fun a => repeat_edge inp bs a y c)

lemma resized_y_u_one (it : InterpolationType) (up : Bool)
    (inp : ℤ → ℤ → ℤ → ℝ) (bs : BufferSpec) (x y c : ℤ) :
    resized_y_u it up 1 inp bs x y c = repeat_edge inp bs x y c := by
  unfold resized_y_u
  have h := sum_delta_collapse it up y (fun b => resized_x_u it up 1 inp bs x b c)
  exact h.trans (resized_x_u_one it up inp bs x y c)

/-- C3: with `scale_factor = 1`, for every kernel variant, either upsample
setting and every input buffer with samples in `[0, 1]`, the output equals
the input exactly at every in-range coordinate `(x, y, c)`. -/
theorem identity_scale (it : InterpolationType) (up : Bool)
    (inp : ℤ → ℤ → ℤ → ℝ) (bs : BufferSpec) (x y c : ℤ)
    (hx1 : bs.xmin ≤ x) (hx2 : x < bs.xmin + bs.xext)
    (hy1 : bs.ymin ≤ y) (hy2 : y < bs.ymin + bs.yext)
    (hin : ∀ a b d : ℤ, 0 ≤ inp a b d ∧ inp a b d ≤ 1) :
    output it up 1 inp bs x y c = inp x y c := by
  have hce : repeat_edge inp bs x y c = inp x y c := by
    unfold repeat_edge
    rw [show clampI x bs.xmin (bs.xmin + bs.xext - 1) = x by unfold clampI; omega,
      show clampI y bs.ymin (bs.ymin + bs.yext - 1) = y by unfold clampI; omega]
  have hval := hin x y c
  have hcl : clamp01 (inp x y c) = inp x y c := by
    unfold clamp01
    rw [min_eq_left hval.2, max_eq_left hval.1]
  unfold output
  cases up
  · rw [if_neg (by simp), resized_x_d_one, hce]
    exact hcl
  · rw [if_pos rfl, resized_y_u_one, hce]
    exact hcl

/-- C3 witness: cubic kernel, `upsample = false`, the constant-1/2 input on
a 1×1 buffer — the output at (0,0,0) is 1/2. -/
theorem identity_scale_witness :
    (((0:ℤ) ≤ 0 ∧ (0:ℤ) < 0 + 1) ∧ ((0:ℤ) ≤ 0 ∧ (0:ℤ) < 0 + 1) ∧
      (∀ a b d : ℤ, 0 ≤ (fun (_ _ _ : ℤ) => (1/2 : ℝ)) a b d ∧
        (fun (_ _ _ : ℤ) => (1/2 : ℝ)) a b d ≤ 1)) ∧
    output .Cubic false 1 (fun _ _ _ => (1/2 : ℝ)) ⟨0, 1, 0, 1⟩ 0 0 0 = 1/2 := by
  refine ⟨⟨⟨le_refl 0, by norm_num⟩, ⟨le_refl 0, by norm_num⟩,
    fun a b d => ⟨by norm_num, by norm_num⟩⟩, ?_⟩
  exact identity_scale .Cubic false (fun _ _ _ => (1/2 : ℝ)) ⟨0, 1, 0, 1⟩ 0 0 0
    (le_refl 0) (by norm_num) (le_refl 0) (by norm_num)
    (fun a b d => ⟨by norm_num, by norm_num⟩)

/-! ### Claim C9: box kernel, scale 2, 2×2 checkerboard input -/

/-- The 2×2 single-channel test image `[[0,1],[1,0]]` of the spec's
scenario (same value for every channel; row y, column x). -/
noncomputable def inp99 (x y _c : ℤ) : ℝ :=
  if x = y then 0 else 1

/-- The 2×2 input buffer bounds for the scenario. -/
def bs99 : BufferSpec :=
  ⟨0, 2, 0, 2⟩

lemma kernel_taps_box2 (u : Bool) : kernel_taps .Box u 2 = 1 := by
  cases u
  · unfold kernel_taps kernel_scaling
    rw [if_neg (by simp), show (taps .Box : ℕ) = 1 from rfl]
    rw [show ((1:ℕ):ℝ)/2 = 1/2 by norm_num]
    rw [show Int.ceil ((1:ℝ)/2) = 1 by rw [Int.ceil_eq_iff]; norm_num]
    rfl
  · exact kernel_taps_box_up

lemma beginx_box2 (u : Bool) (o : ℤ) (h1 : 0 ≤ o) (h2 : o < 4) :
    beginx .Box u 2 o = o / 2 := by
  have hr : kernel_radius .Box u 2 = if u then 1/2 else 1/4 := by
    unfold kernel_radius kernel_scaling
    cases u <;> simp [taps] <;> norm_num
  unfold beginx sourcex
  rw [hr]
  interval_cases o <;> cases u <;>
    · simp only [if_pos, if_neg, Bool.false_eq_true, if_false, if_true]
      rw [Int.ceil_eq_iff]
      push_cast
      norm_num

lemma unnormalized_box2 (u : Bool) (o : ℤ) (h1 : 0 ≤ o) (h2 : o < 4) :
    unnormalized_kernel_x .Box u 2 o 0 = 1 := by
  unfold unnormalized_kernel_x
  rw [beginx_box2 u o h1 h2]
  have hks : kernel_scaling u 2 = if u then 1 else 2 := by
    unfold kernel_scaling
    rfl
  unfold sourcex
  rw [hks]
  show kernel_box _ = 1
  unfold kernel_box
  rw [if_pos]
  rw [abs_le]
  interval_cases o <;> cases u <;>
    · simp only [if_pos, if_neg, Bool.false_eq_true, if_false, if_true]
      push_cast
      norm_num

lemma kernel_x_box2 (u : Bool) (o : ℤ) (h1 : 0 ≤ o) (h2 : o < 4) :
    kernel_x .Box u 2 o 0 = 1 := by
  unfold kernel_x kernel_sum_x
  rw [kernel_taps_box2, Finset.sum_range_one, unnormalized_box2 u o h1 h2]
  norm_num

/-- With the box kernel at scale 2 the whole pipeline collapses to a single
tap per axis: the output sample is the (clamped) input sample at
`(x/2, y/2)` — for either upsample setting. -/
lemma box2_output (u : Bool) (inp : ℤ → ℤ → ℤ → ℝ) (bs : BufferSpec)
    (x y c : ℤ) (hx : 0 ≤ x) (hx4 : x < 4) (hy : 0 ≤ y) (hy4 : y < 4) :
    output .Box u 2 inp bs x y c = clamp01 (repeat_edge inp bs (x / 2) (y / 2) c) := by
  unfold output
  cases u
  · rw [if_neg (by simp)]
    unfold resized_x_d
    rw [kernel_taps_box2, Finset.sum_range_one, kernel_x_box2 false x hx hx4, one_mul]
    unfold resized_y_d
    rw [kernel_taps_box2, Finset.sum_range_one, kernel_x_box2 false y hy hy4, one_mul]
    rw [beginx_box2 false x hx hx4, beginx_box2 false y hy hy4]
    simp only [Nat.cast_zero, zero_add]
  · rw [if_pos rfl]
    unfold resized_y_u
    rw [kernel_taps_box2, Finset.sum_range_one, kernel_x_box2 true y hy hy4, one_mul]
    unfold resized_x_u
    rw [kernel_taps_box2, Finset.sum_range_one, kernel_x_box2 true x hx hx4, one_mul]
    rw [beginx_box2 true x hx hx4, beginx_box2 true y hy hy4]
    simp only [Nat.cast_zero, zero_add]

/-- C9: resizing the 2×2 checkerboard `[[0,1],[1,0]]` by `scale_factor = 2`
with the box kernel maps every output coordinate `(x, y)` in the 4×4 range
to the input pixel `(x/2, y/2)`: each 2×2 output block equals the
corresponding input pixel (nearest-neighbor behavior).  Proved for both
settings of the upsample flag, covering the scenario's `downsample=false`
reading either way. -/
theorem box_scale2_nearest (u : Bool) (x y : ℤ)
    (hx : 0 ≤ x) (hx4 : x < 4) (hy : 0 ≤ y) (hy4 : y < 4) :
    output .Box u 2 inp99 bs99 x y 0 = inp99 (x / 2) (y / 2) 0 := by
  rw [box2_output u inp99 bs99 x y 0 hx hx4 hy hy4]
  unfold repeat_edge
  rw [show bs99.xmin = 0 from rfl, show bs99.xext = 2 from rfl,
    show bs99.ymin = 0 from rfl, show bs99.yext = 2 from rfl]
  rw [show clampI (x/2) 0 (0 + 2 - 1) = x/2 by unfold clampI; omega,
    show clampI (y/2) 0 (0 + 2 - 1) = y/2 by unfold clampI; omega]
  have c0 : clamp01 0 = 0 := by
    unfold clamp01
    rw [min_eq_left (by norm_num : (0:ℝ) ≤ 1), max_self]
  have c1 : clamp01 1 = 1 := by
    unfold clamp01
    rw [min_self, max_eq_left (by norm_num : (0:ℝ) ≤ 1)]
  unfold inp99
  split_ifs
  · exact c0
  · exact c1

/-- C9 witness: the nearest-neighbor equality instantiated at output
coordinate (2, 1) with `upsample = false`; the value is input pixel (1, 0). -/
theorem box_scale2_nearest_witness :
    (((0:ℤ) ≤ 2 ∧ (2:ℤ) < 4) ∧ ((0:ℤ) ≤ 1 ∧ (1:ℤ) < 4)) ∧
      output .Box false 2 inp99 bs99 2 1 0 = inp99 (2 / 2) (1 / 2) 0 :=
  ⟨⟨⟨by decide, by decide⟩, ⟨by decide, by decide⟩⟩,
   box_scale2_nearest false 2 1 (by decide) (by decide) (by decide) (by decide)⟩

/-! ### Concrete evaluations for the C4 counterexample
(linear kernel, `scale_factor = 2`, step input along x) -/

/-- Input for the C4 counterexample: 1 at `x = 1`, else 0 (constant in y
and channel). -/
noncomputable def inp4 (x _y _c : ℤ) : ℝ :=
  if x = 1 then 1 else 0

/-- A 2×1 input buffer for the C4 counterexample. -/
def bs4 : BufferSpec :=
  ⟨0, 2, 0, 1⟩

lemma ks2t : kernel_scaling true 2 = 1 := by
  unfold kernel_scaling
  rw [if_pos rfl]

lemma ks2f : kernel_scaling false 2 = 2 := by
  unfold kernel_scaling
  rw [if_neg (by simp)]

lemma klin_eval (c : ℝ) (h0 : 0 ≤ c) (h1 : c < 1) :
    kernel_linear c = 1 - c ∧ kernel_linear (-c) = 1 - c := by
  constructor
  · unfold kernel_linear
    rw [abs_of_nonneg h0, if_pos h1]
  · unfold kernel_linear
    rw [abs_neg, abs_of_nonneg h0, if_pos h1]

lemma lin2t_taps : kernel_taps .Linear true 2 = 2 := by
  unfold kernel_taps
  rw [ks2t, div_one, show (taps .Linear : ℕ) = 2 from rfl, Int.ceil_natCast]
  rfl

lemma lin2f_taps : kernel_taps .Linear false 2 = 1 := by
  unfold kernel_taps
  rw [ks2f, show (taps .Linear : ℕ) = 2 from rfl]
  rw [show ((2:ℕ):ℝ)/2 = 1 by norm_num, Int.ceil_one]
  rfl

lemma sourcex_2_1 : sourcex 2 1 = 1/4 := by
  unfold sourcex
  push_cast
  norm_num

lemma lin2t_radius : kernel_radius .Linear true 2 = 1 := by
  unfold kernel_radius
  rw [ks2t, div_one, show (taps .Linear : ℕ) = 2 from rfl]
  norm_num

lemma lin2f_radius : kernel_radius .Linear false 2 = 1/2 := by
  unfold kernel_radius
  rw [ks2f, show (taps .Linear : ℕ) = 2 from rfl]
  norm_num

lemma lin2t_beginx_1 : beginx .Linear true 2 1 = 0 := by
  unfold beginx
  rw [sourcex_2_1, lin2t_radius, show (1/4 - 1 : ℝ) = -(3/4) by norm_num]
  rw [Int.ceil_eq_iff]
  constructor <;> norm_num

lemma lin2t_beginx_0 : beginx .Linear true 2 0 = -1 := by
  unfold beginx
  rw [sourcex_2_0, lin2t_radius, show (-(1/4) - 1 : ℝ) = -(5/4) by norm_num]
  rw [Int.ceil_eq_iff]
  constructor <;> push_cast <;> norm_num

lemma lin2f_beginx_1 : beginx .Linear false 2 1 = 0 := by
  unfold beginx
  rw [sourcex_2_1, lin2f_radius, show (1/4 - 1/2 : ℝ) = -(1/4) by norm_num]
  rw [Int.ceil_eq_iff]
  constructor <;> norm_num

lemma lin2f_beginx_0 : beginx .Linear false 2 0 = 0 := by
  unfold beginx
  rw [sourcex_2_0, lin2f_radius, show (-(1/4) - 1/2 : ℝ) = -(3/4) by norm_num]
  rw [Int.ceil_eq_iff]
  constructor <;> norm_num

lemma lin2t_u_x1_0 : unnormalized_kernel_x .Linear true 2 1 0 = 3/4 := by
  unfold unnormalized_kernel_x
  rw [lin2t_beginx_1, sourcex_2_1, ks2t]
  rw [show (((0:ℕ):ℝ) + ((0:ℤ):ℝ) - 1/4) * 1 = -(1/4) by push_cast; norm_num]
  rw [show kernelFn .Linear = kernel_linear from rfl]
  rw [(klin_eval (1/4) (by norm_num) (by norm_num)).2]
  norm_num

lemma lin2t_u_x1_1 : unnormalized_kernel_x .Linear true 2 1 1 = 1/4 := by
  unfold unnormalized_kernel_x
  rw [lin2t_beginx_1, sourcex_2_1, ks2t]
  rw [show (((1:ℕ):ℝ) + ((0:ℤ):ℝ) - 1/4) * 1 = 3/4 by push_cast; norm_num]
  rw [show kernelFn .Linear = kernel_linear from rfl]
  rw [(klin_eval (3/4) (by norm_num) (by norm_num)).1]
  norm_num

lemma lin2t_u_y0_0 : unnormalized_kernel_x .Linear true 2 0 0 = 1/4 := by
  unfold unnormalized_kernel_x
  rw [lin2t_beginx_0, sourcex_2_0, ks2t]
  rw [show (((0:ℕ):ℝ) + ((-1:ℤ):ℝ) - -(1/4)) * 1 = -(3/4) by push_cast; norm_num]
  rw [show kernelFn .Linear = kernel_linear from rfl]
  rw [(klin_eval (3/4) (by norm_num) (by norm_num)).2]
  norm_num

lemma lin2t_u_y0_1 : unnormalized_kernel_x .Linear true 2 0 1 = 3/4 := by
  unfold unnormalized_kernel_x
  rw [lin2t_beginx_0, sourcex_2_0, ks2t]
  rw [show (((1:ℕ):ℝ) + ((-1:ℤ):ℝ) - -(1/4)) * 1 = 1/4 by push_cast; norm_num]
  rw [show kernelFn .Linear = kernel_linear from rfl]
  rw [(klin_eval (1/4) (by norm_num) (by norm_num)).1]
  norm_num

lemma lin2f_u_x1_0 : unnormalized_kernel_x .Linear false 2 1 0 = 1/2 := by
  unfold unnormalized_kernel_x
  rw [lin2f_beginx_1, sourcex_2_1, ks2f]
  rw [show (((0:ℕ):ℝ) + ((0:ℤ):ℝ) - 1/4) * 2 = -(1/2) by push_cast; norm_num]
  rw [show kernelFn .Linear = kernel_linear from rfl]
  rw [(klin_eval (1/2) (by norm_num) (by norm_num)).2]
  norm_num

lemma lin2f_u_y0_0 : unnormalized_kernel_x .Linear false 2 0 0 = 1/2 := by
  unfold unnormalized_kernel_x
  rw [lin2f_beginx_0, sourcex_2_0, ks2f]
  rw [show (((0:ℕ):ℝ) + ((0:ℤ):ℝ) - -(1/4)) * 2 = 1/2 by push_cast; norm_num]
  rw [show kernelFn .Linear = kernel_linear from rfl]
  rw [(klin_eval (1/2) (by norm_num) (by norm_num)).1]
  norm_num

lemma lin2t_kx_x1_0 : kernel_x .Linear true 2 1 0 = 3/4 := by
  unfold kernel_x kernel_sum_x
  rw [lin2t_taps, Finset.sum_range_succ, Finset.sum_range_one]
  rw [lin2t_u_x1_0, lin2t_u_x1_1]
  norm_num

lemma lin2t_kx_x1_1 : kernel_x .Linear true 2 1 1 = 1/4 := by
  unfold kernel_x kernel_sum_x
  rw [lin2t_taps, Finset.sum_range_succ, Finset.sum_range_one]
  rw [lin2t_u_x1_0, lin2t_u_x1_1]
  norm_num

lemma lin2t_ky_y0_0 : kernel_x .Linear true 2 0 0 = 1/4 := by
  unfold kernel_x kernel_sum_x
  rw [lin2t_taps, Finset.sum_range_succ, Finset.sum_range_one]
  rw [lin2t_u_y0_0, lin2t_u_y0_1]
  norm_num

lemma lin2t_ky_y0_1 : kernel_x .Linear true 2 0 1 = 3/4 := by
  unfold kernel_x kernel_sum_x
  rw [lin2t_taps, Finset.sum_range_succ, Finset.sum_range_one]
  rw [lin2t_u_y0_0, lin2t_u_y0_1]
  norm_num

lemma lin2f_kx_x1_0 : kernel_x .Linear false 2 1 0 = 1 := by
  unfold kernel_x kernel_sum_x
  rw [lin2f_taps, Finset.sum_range_one, lin2f_u_x1_0]
  norm_num

lemma lin2f_ky_y0_0 : kernel_x .Linear false 2 0 0 = 1 := by
  unfold kernel_x kernel_sum_x
  rw [lin2f_taps, Finset.sum_range_one, lin2f_u_y0_0]
  norm_num

lemma re4_0 (b : ℤ) : repeat_edge inp4 bs4 0 b 0 = 0 := by
  unfold repeat_edge
  rw [show bs4.xmin = 0 from rfl, show bs4.xext = 2 from rfl]
  rw [show clampI 0 0 (0 + 2 - 1) = 0 by unfold clampI; omega]
  unfold inp4
  rw [if_neg (by decide)]

lemma re4_1 (b : ℤ) : repeat_edge inp4 bs4 1 b 0 = 1 := by
  unfold repeat_edge
  rw [show bs4.xmin = 0 from rfl, show bs4.xext = 2 from rfl]
  rw [show clampI 1 0 (0 + 2 - 1) = 1 by unfold clampI; omega]
  unfold inp4
  rw [if_pos rfl]

lemma lin2t_rxu (b : ℤ) : resized_x_u .Linear true 2 inp4 bs4 1 b 0 = 1/4 := by
  unfold resized_x_u
  rw [lin2t_taps, Finset.sum_range_succ, Finset.sum_range_one]
  rw [lin2t_kx_x1_0, lin2t_kx_x1_1, lin2t_beginx_1]
  rw [show ((0:ℕ):ℤ) + 0 = 0 by omega, show ((1:ℕ):ℤ) + 0 = 1 by omega]
  rw [re4_0 b, re4_1 b]
  norm_num

lemma lin2t_output : output .Linear true 2 inp4 bs4 1 0 0 = 1/4 := by
  unfold output
  rw [if_pos rfl]
  unfold resized_y_u
  rw [lin2t_taps, Finset.sum_range_succ, Finset.sum_range_one]
  rw [lin2t_ky_y0_0, lin2t_ky_y0_1, lin2t_beginx_0]
  rw [show ((0:ℕ):ℤ) + (-1) = -1 by omega, show ((1:ℕ):ℤ) + (-1) = 0 by omega]
  rw [lin2t_rxu (-1), lin2t_rxu 0]
  rw [show ((1:ℝ)/4 * (1/4) + 3/4 * (1/4)) = 1/4 by norm_num]
  unfold clamp01
  rw [min_eq_left (by norm_num : (1:ℝ)/4 ≤ 1), max_eq_left (by norm_num : (0:ℝ) ≤ 1/4)]

lemma lin2f_ryd (a : ℤ) : resized_y_d .Linear false 2 inp4 bs4 a 0 0 =
    repeat_edge inp4 bs4 a 0 0 := by
  unfold resized_y_d
  rw [lin2f_taps, Finset.sum_range_one, lin2f_ky_y0_0, one_mul, lin2f_beginx_0]
  rw [show ((0:ℕ):ℤ) + 0 = 0 by omega]

lemma lin2f_output : output .Linear false 2 inp4 bs4 1 0 0 = 0 := by
  unfold output
  rw [if_neg (by simp)]
  unfold resized_x_d
  rw [lin2f_taps, Finset.sum_range_one, lin2f_kx_x1_0, one_mul, lin2f_beginx_1]
  rw [show ((0:ℕ):ℤ) + 0 = 0 by omega]
  rw [lin2f_ryd 0, re4_0 0]
  unfold clamp01
  rw [min_eq_left (by norm_num : (0:ℝ) ≤ 1), max_self]

/-- C4 counterexample: same input, same `scale_factor = 2`, same linear
kernel — but the pipeline built with `upsample = true` returns 1/4 at output
coordinate (1, 0, 0) while the pipeline built with `upsample = false`
returns 0 there: the flag selects `kernel_scaling` (filter width), not just
the pass ordering, so it does change numerical results. -/
theorem upsample_flag_changes_result :
    output .Linear true 2 inp4 bs4 1 0 0 ≠ output .Linear false 2 inp4 bs4 1 0 0 := by
  rw [lin2t_output, lin2f_output]
  norm_num

/-! ### Zero kernel sums for every kernel variant under inconsistent
configurations (`kernel_scaling > 1`), documenting exactly where claim C6's
non-vanishing guarantee fails -/

/-- With the linear kernel, `upsample = false` and `scale_factor = 3`, the
single tap at output coordinate 0 falls at scaled offset 1, on the closed
boundary of the linear kernel's open support, so the sum is exactly 0. -/
theorem kernel_sum_zero_linear : kernel_sum_x .Linear false 3 0 = 0 := by
  have hT : kernel_taps .Linear false 3 = 1 := by
    unfold kernel_taps kernel_scaling
    rw [if_neg (by simp), show (taps .Linear : ℕ) = 2 from rfl]
    rw [show ((2:ℕ):ℝ)/3 = 2/3 by norm_num]
    rw [show Int.ceil ((2:ℝ)/3) = 1 by rw [Int.ceil_eq_iff]; norm_num]
    rfl
  have hR : kernel_radius .Linear false 3 = 1/3 := by
    unfold kernel_radius kernel_scaling
    rw [if_neg (by simp), show (taps .Linear : ℕ) = 2 from rfl]
    norm_num
  have hb : beginx .Linear false 3 0 = 0 := by
    unfold beginx
    rw [sourcex_3_0, hR]
    rw [show (-(1/3) - 1/3 : ℝ) = -(2/3) by norm_num]
    rw [Int.ceil_eq_iff]
    constructor <;> norm_num
  unfold kernel_sum_x
  rw [hT, Finset.sum_range_one]
  unfold unnormalized_kernel_x
  rw [hb, sourcex_3_0]
  rw [show kernel_scaling false 3 = 3 by unfold kernel_scaling; rw [if_neg (by simp)]]
  rw [show (((0:ℕ):ℝ) + ((0:ℤ):ℝ) - -(1/3)) * 3 = ((1:ℤ):ℝ) by push_cast; norm_num]
  exact kernelFn_int .Linear 1 (by norm_num)

/-- With the cubic kernel, `upsample = false` and `scale_factor = 5`, the
single tap at output coordinate 3 falls at scaled offset −1, a zero of the
Keys cubic, so the sum is exactly 0. -/
theorem kernel_sum_zero_cubic : kernel_sum_x .Cubic false 5 3 = 0 := by
  have hs : sourcex 5 3 = 1/5 := by
    unfold sourcex
    push_cast
    norm_num
  have hT : kernel_taps .Cubic false 5 = 1 := by
    unfold kernel_taps kernel_scaling
    rw [if_neg (by simp), show (taps .Cubic : ℕ) = 4 from rfl]
    rw [show ((4:ℕ):ℝ)/5 = 4/5 by norm_num]
    rw [show Int.ceil ((4:ℝ)/5) = 1 by rw [Int.ceil_eq_iff]; norm_num]
    rfl
  have hR : kernel_radius .Cubic false 5 = 2/5 := by
    unfold kernel_radius kernel_scaling
    rw [if_neg (by simp), show (taps .Cubic : ℕ) = 4 from rfl]
    norm_num
  have hb : beginx .Cubic false 5 3 = 0 := by
    unfold beginx
    rw [hs, hR]
    rw [show (1/5 - 2/5 : ℝ) = -(1/5) by norm_num]
    rw [Int.ceil_eq_iff]
    constructor <;> norm_num
  unfold kernel_sum_x
  rw [hT, Finset.sum_range_one]
  unfold unnormalized_kernel_x
  rw [hb, hs]
  rw [show kernel_scaling false 5 = 5 by unfold kernel_scaling; rw [if_neg (by simp)]]
  rw [show (((0:ℕ):ℝ) + ((0:ℤ):ℝ) - 1/5) * 5 = ((-1:ℤ):ℝ) by push_cast; norm_num]
  exact kernelFn_int .Cubic (-1) (by norm_num)

/-- With the lanczos kernel, `upsample = false` and `scale_factor = 7`, the
single tap at output coordinate 4 falls at scaled offset −1, a zero of the
lanczos kernel, so the sum is exactly 0. -/
theorem kernel_sum_zero_lanczos : kernel_sum_x .Lanczos false 7 4 = 0 := by
  have hs : sourcex 7 4 = 1/7 := by
    unfold sourcex
    push_cast
    norm_num
  have hT : kernel_taps .Lanczos false 7 = 1 := by
    unfold kernel_taps kernel_scaling
    rw [if_neg (by simp), show (taps .Lanczos : ℕ) = 6 from rfl]
    rw [show ((6:ℕ):ℝ)/7 = 6/7 by norm_num]
    rw [show Int.ceil ((6:ℝ)/7) = 1 by rw [Int.ceil_eq_iff]; norm_num]
    rfl
  have hR : kernel_radius .Lanczos false 7 = 3/7 := by
    unfold kernel_radius kernel_scaling
    rw [if_neg (by simp), show (taps .Lanczos : ℕ) = 6 from rfl]
    norm_num
  have hb : beginx .Lanczos false 7 4 = 0 := by
    unfold beginx
    rw [hs, hR]
    rw [show (1/7 - 3/7 : ℝ) = -(2/7) by norm_num]
    rw [Int.ceil_eq_iff]
    constructor <;> norm_num
  unfold kernel_sum_x
  rw [hT, Finset.sum_range_one]
  unfold unnormalized_kernel_x
  rw [hb, hs]
  rw [show kernel_scaling false 7 = 7 by unfold kernel_scaling; rw [if_neg (by simp)]]
  rw [show (((0:ℕ):ℝ) + ((0:ℤ):ℝ) - 1/7) * 7 = ((-1:ℤ):ℝ) by push_cast; norm_num]
  exact kernelFn_int .Lanczos (-1) (by norm_num)
